import Mathlib

/-!
Shallow embedding of the color augmentation pipeline of
`imgaug/imgaug/augmenters/color.py` (colorspace conversion, hue/saturation
add operations, and color quantization), together with theorems checking
the natural-language specification against it.

Images are numpy `uint8` arrays of shape `(H, W, C)`.  We embed them as a
flat row-major list of natural numbers together with the shape; the
`uint8` dtype is expressed by the predicate `Image.isUint8` where a claim
needs it.  External OpenCV primitives (`cv2.cvtColor`, `cv2.kmeans`) that
the source calls are kept as explicit function parameters, since the
source treats them as opaque conversions; everything the source itself
computes is translated directly.
-/

set_option autoImplicit false

/-- Error taxonomy for the failure modes exercised by the claims.  The
source raises `AssertionError` with a message; the spec names these
`UnsupportedConversion`, `InvalidImageShape`, `ParameterRangeError`,
`InvalidChannelCount` and `ShapeMismatch`. -/
inductive Err where
  | unsupportedConversion
  | invalidImageShape
  | parameterRange
  | invalidChannelCount
  | shapeMismatch
  deriving DecidableEq, Repr

/-- A `uint8` numpy image of shape `(h, w, c)`, stored flat in row-major
order: pixel `(i, j, k)` lives at index `i*(w*c) + j*c + k`. -/
structure Image where
  h : ℕ
  w : ℕ
  c : ℕ
  data : List ℕ
  deriving DecidableEq, Repr

/-- Read pixel `(i, j, k)`; out-of-range reads default to `0` (they never
occur in the proofs, which carry bounds). -/
def Image.px (img : Image) (i j k : ℕ) : ℕ :=
  img.data.getD (i * (img.w * img.c) + j * img.c + k) 0

/-- Build an image of shape `(h, w, c)` from a pixel-valued function. -/
def Image.ofFn (h w c : ℕ) (f : ℕ → ℕ → ℕ → ℕ) : Image :=
  ⟨h, w, c,
    (List.range (h * w * c)).map
      (fun idx => f (idx / (w * c)) (idx % (w * c) / c) (idx % c))⟩

/-- All pixel values fit in a byte. -/
def Image.isUint8 (img : Image) : Prop := ∀ v ∈ img.data, v ≤ 255

/-! ### Colorspace converter (`change_colorspace_`, `change_colorspaces_`) -/

/-- The enumerated colorspace tags (`CSPACE_ALL` in the source). -/
inductive Colorspace where
  | RGB | BGR | GRAY | YCrCb | HSV | HLS | Lab | Luv | YUV | CIE
  deriving DecidableEq, Repr, Fintype

/-- The curated direct-conversion table `_CSPACE_OPENCV_CONV_VARS`:
exactly the `(from, to)` pairs for which a native OpenCV conversion code
is registered. -/
def CSPACE_OPENCV_CONV_VARS : List (Colorspace × Colorspace) :=
  [(.RGB, .BGR), (.RGB, .GRAY), (.RGB, .YCrCb), (.RGB, .HSV), (.RGB, .HLS),
   (.RGB, .Lab), (.RGB, .Luv), (.RGB, .YUV), (.RGB, .CIE),
   (.BGR, .RGB), (.BGR, .GRAY), (.BGR, .YCrCb), (.BGR, .HSV), (.BGR, .HLS),
   (.BGR, .Lab), (.BGR, .Luv), (.BGR, .YUV), (.BGR, .CIE),
   (.YCrCb, .RGB), (.YCrCb, .BGR),
   (.HSV, .RGB), (.HSV, .BGR),
   (.HLS, .RGB), (.HLS, .BGR),
   (.Lab, .RGB), (.Lab, .BGR),
   (.Luv, .RGB), (.Luv, .BGR),
   (.YUV, .RGB), (.YUV, .BGR),
   (.CIE, .RGB), (.CIE, .BGR)]

/-- Whether `(a, b)` has a registered native conversion. -/
def directConv (a b : Colorspace) : Bool :=
  CSPACE_OPENCV_CONV_VARS.contains (a, b)

/-- The sequence of native conversions `change_colorspace_` performs for
`from_cs ≠ to_cs`: the direct pair when registered, otherwise the
RGB-hub route `from_cs -> RGB -> to_cs`. -/
def convPlan (fromCS toCS : Colorspace) : List (Colorspace × Colorspace) :=
  if directConv fromCS toCS then [(fromCS, toCS)]
  else [(fromCS, .RGB), (.RGB, toCS)]

/-- Grayscale outputs of `cv2.cvtColor` are 2-D; the source tiles them
back to three channels (`np.tile(image_aug[:, :, np.newaxis], (1,1,3))`). -/
def tileGrayTo3 (img : Image) : Image :=
  if img.c = 1 then Image.ofFn img.h img.w 3 (fun i j _ => img.px i j 0)
  else img

/-- `change_colorspace_(image, to_colorspace, from_colorspace)`.
`cvtColor` is the external OpenCV conversion primitive, passed as a
parameter.  The source's `gate_dtypes` (uint8 only) always passes because
`Image` models uint8 arrays, and membership of the tags in `CSPACE_ALL`
is intrinsic to the `Colorspace` type; the remaining checks appear in the
source's order: the from-GRAY assert, then the shape asserts, then the
identity fast path, then the direct-or-hub conversion. -/
def change_colorspace_ (cvtColor : Colorspace → Colorspace → Image → Image)
    (img : Image) (toCS : Colorspace) (fromCS : Colorspace) :
    Except Err Image :=
  if fromCS = Colorspace.GRAY then .error .unsupportedConversion
  else if img.c ≠ 3 then .error .invalidImageShape
  else if fromCS = toCS then .ok img
  else .ok (tileGrayTo3
    ((convPlan fromCS toCS).foldl (fun im p => cvtColor p.1 p.2 im) img))

/-- A colorspace argument of `change_colorspaces_`: either one tag for
the whole batch or one tag per image. -/
inductive CsArg where
  | single (c : Colorspace)
  | many (cs : List Colorspace)
  deriving DecidableEq, Repr

/-- The `_validate` closure of `change_colorspaces_`: a list must match
the batch length; a single tag is broadcast via `[arg] * len(images)`. -/
def validateCsArg (n : ℕ) (arg : CsArg) : Except Err (List Colorspace) :=
  match arg with
  | .many cs => if cs.length = n then .ok cs else .error .shapeMismatch
  | .single c => .ok (List.replicate n c)

/-- The conversion loop of `change_colorspaces_`: `images[i] =
change_colorspace_(image, to, from)` in index order.  The returned list
is the state of the (mutated in place) batch when the loop finishes or
the first conversion raises; the `Option Err` is the raised error. -/
def convertLoop (step : Image → Colorspace → Colorspace → Except Err Image) :
    List Image → List Colorspace → List Colorspace →
    List Image × Option Err
  | [], _, _ => ([], none)
  | img :: rest, t :: ts, f :: fs =>
    match step img t f with
    | .ok img2 =>
      let r := convertLoop step rest ts fs
      (img2 :: r.1, r.2)
    | .error e => (img :: rest, some e)
  | imgs, _, _ => (imgs, none)

/-- `change_colorspaces_(images, to_colorspaces, from_colorspaces)`. -/
def change_colorspaces_ (cvtColor : Colorspace → Colorspace → Image → Image)
    (images : List Image) (toCS fromCS : CsArg) :
    List Image × Option Err :=
  match validateCsArg images.length toCS with
  | .error e => (images, some e)
  | .ok ts =>
    match validateCsArg images.length fromCS with
    | .error e => (images, some e)
    | .ok fs =>
      convertLoop (fun im t f => change_colorspace_ cvtColor im t f)
        images ts fs

/-! ### Hue/saturation engine (`AddToHueAndSaturation`) -/

/-- The hue projection of `AddToHueAndSaturation._draw_samples`:
`(samples_hue / 255.0 * (360/2)).astype(np.int32)`, i.e. `v * 180 / 255`
truncated toward zero. -/
def projHueSample (v : ℤ) : ℤ := Int.tdiv (v * 180) 255

/-- `AddToHueAndSaturation._generate_lut_table`: a pair of `512 x 256`
uint8 tables; for `i` in `[-255, 255]`, row `255 + i` of the first table
is `np.mod(np.arange(256) + i, 180)` and of the second table is
`np.clip(np.arange(256) + i, 0, 255)`; row `511` keeps the `np.zeros`
initialisation. -/
def AddToHueAndSaturation.generate_lut_table :
    List (List ℕ) × List (List ℕ) :=
  ((List.range 512).map (fun (r : ℕ) =>
     (List.range 256).map (fun (v : ℕ) =>
       if r < 511 then ((↑v + ((r : ℤ) - 255)) % 180).toNat else 0)),
   (List.range 512).map (fun (r : ℕ) =>
     (List.range 256).map (fun (v : ℕ) =>
       if r < 511 then (max 0 (min 255 (↑v + ((r : ℤ) - 255)))).toNat
       else 0)))

/-- `cv2.LUT` applied to one pixel value: look the value up in a
256-entry table. -/
def cv2LUT (table : List ℕ) (v : ℕ) : ℕ := table.getD v 0

/-- `AddToHueAndSaturation._transform_image_cv2`: channel 0 goes through
row `255 + hue` of the cached hue table, channel 1 through row
`255 + saturation` of the saturation table, the value channel is left
unchanged.  `hue` is the already-projected per-image hue sample. -/
def AddToHueAndSaturation.transform_image_cv2
    (img : Image) (hue saturation : ℤ) : Image :=
  Image.ofFn img.h img.w img.c (fun i j k =>
    if k = 0 then
      cv2LUT (AddToHueAndSaturation.generate_lut_table.1.getD
        (255 + hue).toNat []) (img.px i j 0)
    else if k = 1 then
      cv2LUT (AddToHueAndSaturation.generate_lut_table.2.getD
        (255 + saturation).toNat []) (img.px i j 1)
    else img.px i j k)

/-- `AddToHueAndSaturation._transform_image_numpy`:
`image_hsv[...,0] = np.mod(image_hsv[...,0] + hue, 180)` and
`image_hsv[...,1] = np.clip(image_hsv[...,1] + saturation, 0, 255)`. -/
def AddToHueAndSaturation.transform_image_numpy
    (img : Image) (hue saturation : ℤ) : Image :=
  Image.ofFn img.h img.w img.c (fun i j k =>
    if k = 0 then (((img.px i j 0 : ℤ) + hue) % 180).toNat
    else if k = 1 then (max 0 (min 255 ((img.px i j 1 : ℤ) + saturation))).toNat
    else img.px i j k)

/-- The sampling-time validation and per-channel combination of
`AddToHueAndSaturation._draw_samples` for the combined-`value` case:
`samples` holds the `(nb_images, 2)` raw draws, `perChannel` the
per-image coin flips.  The source asserts only `samples[0, 0]` to be in
`[-255, 255]`; hue samples are then projected with `projHueSample`,
saturation samples take the second column where `per_channel` is set. -/
def AddToHueAndSaturation.draw_samples
    (samples : List (ℤ × ℤ)) (perChannel : List Bool) :
    Except Err (List ℤ × List ℤ) :=
  match samples with
  | [] => .error .invalidImageShape
  | (s0, _) :: _ =>
    if -255 ≤ s0 ∧ s0 ≤ 255 then
      .ok (samples.map (fun p => projHueSample p.1),
           (samples.zip perChannel).map (fun q =>
             if q.2 then q.1.2 else q.1.1))
    else .error .parameterRange

/-- The per-image pipeline of `AddToHueAndSaturation._augment_images`
restricted to one image and the cv2 backend: convert to HSV, apply the
LUT transform with the projected hue sample and the raw saturation
sample, convert back.  The two `cvtColor`-backed conversions are passed
as parameters. -/
def AddToHueAndSaturation.augment_image
    (cvtToHSV cvtFromHSV : Image → Image) (img : Image)
    (valueHue valueSat : ℤ) : Image :=
  cvtFromHSV (AddToHueAndSaturation.transform_image_cv2 (cvtToHSV img)
    (projHueSample valueHue) valueSat)

/-- `AddToHue(value)` is `AddToHueAndSaturation(value_hue=value)`; the
missing `value_saturation` makes the saturation samples zero. -/
def AddToHue.augment_image (cvtToHSV cvtFromHSV : Image → Image)
    (img : Image) (value : ℤ) : Image :=
  AddToHueAndSaturation.augment_image cvtToHSV cvtFromHSV img value 0

/-- The specification's per-pixel hue-addition equation, stated in its
words: project the native hue to the normalized 0-255 domain, add the
raw shift, reduce modulo 255, scale back to `[0, 180]`. -/
def specHueAdd (hueNative : ℕ) (shift : ℤ) : ℕ :=
  let hueIn : ℤ := ((hueNative : ℤ) * 255) / 180
  ((((hueIn + shift) % 255) * 180) / 255).toNat

/-! ### Color quantizer -/

/-- `_AbstractColorQuantization._draw_samples`: the sampled per-image
`n_colors` values are clipped from below only,
`np.clip(n_colors, 2, None)`. -/
def AbstractColorQuantization.draw_samples (nColors : List ℤ) : List ℤ :=
  nColors.map (fun n => max n 2)

/-- `np.round`: round half to even (banker's rounding). -/
def roundHalfEven (x : ℚ) : ℤ :=
  if x - ⌊x⌋ < 1/2 then ⌊x⌋
  else if 1/2 < x - ⌊x⌋ then ⌊x⌋ + 1
  else if ⌊x⌋ % 2 = 0 then ⌊x⌋ else ⌊x⌋ + 1

/-- Floor of the base-2 logarithm of a natural number, with an explicit
fuel argument (`natLog2 n n` is `⌊log2 n⌋` for `n ≥ 1`). -/
def natLog2 : ℕ → ℕ → ℕ
  | 0, _ => 0
  | f + 1, n => if n < 2 then 0 else natLog2 f (n / 2) + 1

/-- Floor of the base-2 logarithm of a positive rational: the unique
`e` with `2^e ≤ x < 2^(e+1)`, computed from the binary lengths of the
numerator and denominator. -/
def qlog2 (x : ℚ) : ℤ :=
  let nn := x.num.toNat
  let a := natLog2 nn nn
  let b := natLog2 x.den x.den
  if 2 ^ a * x.den ≤ nn * 2 ^ b then (a : ℤ) - b else (a : ℤ) - b - 1

/-- IEEE-754 round-to-nearest-even of a rational to a `p`-bit significand
(`p = 24` is float32, `p = 53` is float64), exact in ℚ: the value is
scaled by the power of two that puts it in `[2^(p-1), 2^p)`, rounded
half-to-even to an integer, and scaled back.  This is the result of a
floating-point operation whose exact value is `x`, for the nonnegative
normal-range values that arise here (nonpositive inputs map to 0). -/
def flRound (p : ℕ) (x : ℚ) : ℚ :=
  if x ≤ 0 then 0
  else
    let e : ℤ := qlog2 x
    ((roundHalfEven (x / 2 ^ (e - p + 1)) : ℤ) : ℚ) * 2 ^ (e - p + 1)

/-- The float32 evaluation of
`np.round(np.floor(w/q)*q + q/2)` shared by both applications of the
uniform quantizer: `q32` is the float32 bin width, `h32` the float32
half-width `q/2`, and each arithmetic step is rounded to float32
(`np.floor(w/q)` is exact once floored; the product, the sum and the
final `np.round` each round once).  NumPy's value-based casting keeps
the intermediate array in float32 throughout. -/
def uniformQuantCore (q32 h32 w : ℚ) : ℤ :=
  roundHalfEven (flRound 24 (flRound 24 ((⌊flRound 24 (w / q32)⌋ : ℚ) * q32)
    + h32))

/-- The per-value map of `quantize_colors_uniform` for `n_colors < 256`:
`q = 256/n_colors` computed in float64, then
`np.clip(np.round(np.floor(v/q)*q + q/2), 0, 255).astype(uint8)` with
the array arithmetic in float32 (the uint8 array with a float64 scalar
promotes to float32 under NumPy value-based casting), each operation
rounding once to the nearest representable float. -/
def uniformQuantPixel (nColors v : ℕ) : ℕ :=
  let q64 : ℚ := flRound 53 (256 / (nColors : ℚ))
  (max 0 (min 255
    (uniformQuantCore (flRound 24 q64) (flRound 24 (q64 / 2)) (v : ℚ)))).toNat

/-- `quantize_colors_uniform(image, n_colors)`: assert
`2 <= n_colors <= 256`, return a copy unchanged for `n_colors == 256`,
otherwise apply the uniform bin formula to every value.  (The
`np.clip(n_colors, 2, 256)` after the assert is the identity once the
assert has passed.) -/
def quantize_colors_uniform (img : Image) (nColors : ℕ) :
    Except Err Image :=
  if 2 ≤ nColors ∧ nColors ≤ 256 then
    if nColors = 256 then .ok img
    else .ok ⟨img.h, img.w, img.c, img.data.map (uniformQuantPixel nColors)⟩
  else .error .parameterRange

/-- `quantize_colors_kmeans(image, n_colors)`: assert
`2 <= n_colors <= 256`; if `n_colors >= H*W` return a copy unchanged;
otherwise run the (external, seeded) `cv2.kmeans` clustering and replace
each pixel by its centroid — the clustering step is the parameter
`kmeansFn`. -/
def quantize_colors_kmeans (kmeansFn : Image → ℕ → Image) (img : Image)
    (nColors : ℕ) : Except Err Image :=
  if 2 ≤ nColors ∧ nColors ≤ 256 then
    if img.h * img.w ≤ nColors then .ok img
    else .ok (kmeansFn img nColors)
  else .error .parameterRange

/-- Modelled from the spec: `imgaug.imgaug.imresize_single_image` is part
of this repository but outside the provided sources.  The spec describes
it only as resizing to a target `(height, width)` with an interpolation
method ("downscale (preserving aspect ratio) before quantizing, then
upscale the quantized result back to the original size", "slightly
blurred boundary pixels after upscaling").  It is modelled as a
nearest-neighbour sampler: output pixel `(i, j)` reads input pixel
`(i*h/nh, j*w/nw)`; channels are resized alike. -/
def imresize_single_image (img : Image) (nh nw : ℕ) : Image :=
  Image.ofFn nh nw img.c (fun i j k =>
    img.px (i * img.h / nh) (j * img.w / nw) k)

/-- `_AbstractColorQuantization._ensure_max_size`: if the longer side
exceeds `max_size`, downscale so the longer side matches it.  The size
arithmetic is Python floats: `resize_factor = max_size / size` rounds
once to float64, `int(h * resize_factor)` multiplies in float64 and
truncates (nonnegative here, so truncation is the floor). -/
def AbstractColorQuantization.ensure_max_size (img : Image)
    (maxSize : Option ℕ) : Image :=
  match maxSize with
  | none => img
  | some m =>
    let size := max img.h img.w
    if m < size then
      let f : ℚ := flRound 53 ((m : ℚ) / (size : ℚ))
      imresize_single_image img (⌊flRound 53 ((img.h : ℚ) * f)⌋).toNat
        (⌊flRound 53 ((img.w : ℚ) * f)⌋).toNat
    else img

/-- `image[:, :, start:start+len]`: a channel slice. -/
def Image.channels (img : Image) (start len : ℕ) : Image :=
  Image.ofFn img.h img.w len (fun i j k => img.px i j (start + k))

/-- `np.concatenate([a, b], axis=2)`. -/
def Image.concatChannels (a b : Image) : Image :=
  Image.ofFn a.h a.w (a.c + b.c) (fun i j k =>
    if k < a.c then a.px i j k else b.px i j (k - a.c))

/-- `_AbstractColorQuantization._augment_single_image`: validate the
channel count, downscale when `max_size` is exceeded, split off the
alpha channel of 4-channel input, round-trip the color channels through
the working colorspace (`cs`/`csInv`, `Noop` when `to_colorspace` is
`None`), quantize, re-attach alpha, and resize back to the original
shape when it changed.  `quantizeFn` is the strategy's `_quantize`. -/
def AbstractColorQuantization.augment_single_image
    (quantizeFn : Image → Except Err Image) (cs csInv : Image → Image)
    (maxSize : Option ℕ) (img : Image) : Except Err Image :=
  if img.c = 1 ∨ img.c = 3 ∨ img.c = 4 then
    let image := AbstractColorQuantization.ensure_max_size img maxSize
    let imageAugE : Except Err Image :=
      if image.c = 1 then quantizeFn image
      else if image.c = 4 then
        let alphaChannel := image.channels 3 1
        let base := image.channels 0 3
        (quantizeFn (cs base)).map (fun q =>
          (csInv q).concatChannels alphaChannel)
      else (quantizeFn (cs image)).map csInv
    imageAugE.map (fun imageAug =>
      if (img.h, img.w, img.c) ≠ (imageAug.h, imageAug.w, imageAug.c) then
        imresize_single_image imageAug img.h img.w
      else imageAug)
  else .error .invalidChannelCount

/-- The per-pixel hue arithmetic of the `WithHueAndSaturation` pipeline
with an `Add(value=shift)` child (`_augment_images`): project the native
hue to `[0, 255]` (`(h/180*255).astype(int16)`), add the raw shift on
the int16 plane, then `(np.mod(., 255)/255*(360/2)).astype(np.uint8)`. -/
def WithHueAndSaturation.hue_pipeline (hNative : ℕ) (shift : ℤ) : ℕ :=
  let hueProj : ℤ := ((hNative : ℤ) * 255) / 180
  let hueAug : ℤ := hueProj + shift
  (((hueAug % 255) * 180) / 255).toNat

/-- A function on images that keeps height, width and channel count. -/
def preservesShape (f : Image → Image) : Prop :=
  ∀ x, (f x).h = x.h ∧ (f x).w = x.w ∧ (f x).c = x.c

/-- A `4x4` 4-channel test image whose alpha channel (channel 3) varies
from pixel to pixel. -/
def C1img : Image :=
  Image.ofFn 4 4 4 (fun i j k => if k = 3 then (i * 4 + j) * 10 else 100)

/-!
## Theorems

First the generic lemmas about the image representation and the lookup
tables, then one theorem (with witness or counterexample) per claim.
-/
theorem Image.ofFn_h (h w c : ℕ) (f : ℕ → ℕ → ℕ → ℕ) :
    (Image.ofFn h w c f).h = h := rfl

theorem Image.ofFn_w (h w c : ℕ) (f : ℕ → ℕ → ℕ → ℕ) :
    (Image.ofFn h w c f).w = w := rfl

theorem Image.ofFn_c (h w c : ℕ) (f : ℕ → ℕ → ℕ → ℕ) :
    (Image.ofFn h w c f).c = c := rfl

theorem Image.flat_index_lt {h w c i j k : ℕ}
    (hi : i < h) (hj : j < w) (hk : k < c) :
    i * (w * c) + j * c + k < h * w * c := by
  have h1 : j * c + k < w * c := by
    calc j * c + k < j * c + c := by omega
    _ = (j + 1) * c := by ring
    _ ≤ w * c := Nat.mul_le_mul_right c hj
  calc i * (w * c) + j * c + k = i * (w * c) + (j * c + k) := by omega
  _ < i * (w * c) + w * c := by omega
  _ = (i + 1) * (w * c) := by ring
  _ ≤ h * (w * c) := Nat.mul_le_mul_right (w * c) hi
  _ = h * w * c := by ring

theorem Image.px_ofFn (h w c : ℕ) (f : ℕ → ℕ → ℕ → ℕ) {i j k : ℕ}
    (hi : i < h) (hj : j < w) (hk : k < c) :
    (Image.ofFn h w c f).px i j k = f i j k := by
  have hc : 0 < c := by omega
  have hw : 0 < w := by omega
  have hwc : 0 < w * c := Nat.mul_pos hw hc
  have hidx : i * (w * c) + j * c + k < h * w * c := flat_index_lt hi hj hk
  have hlen : ((List.range (h * w * c)).map
      (fun idx => f (idx / (w * c)) (idx % (w * c) / c) (idx % c))).length
      = h * w * c := by
    rw [List.length_map, List.length_range]
  show ((List.range (h * w * c)).map
      (fun idx => f (idx / (w * c)) (idx % (w * c) / c) (idx % c))).getD
      (i * (w * c) + j * c + k) 0 = f i j k
  rw [List.getD_eq_getElem _ _ (by omega)]
  rw [List.getElem_map, List.getElem_range]
  have hrec : j * c + k < w * c := by
    calc j * c + k < j * c + c := by omega
    _ = (j + 1) * c := by ring
    _ ≤ w * c := Nat.mul_le_mul_right c hj
  have hdiv : (i * (w * c) + j * c + k) / (w * c) = i := by
    have heq : i * (w * c) + j * c + k = (j * c + k) + (w * c) * i := by ring
    rw [heq, Nat.add_mul_div_left _ _ hwc, Nat.div_eq_of_lt hrec]; omega
  have hmod : (i * (w * c) + j * c + k) % (w * c) = j * c + k := by
    have heq : i * (w * c) + j * c + k = (j * c + k) + (w * c) * i := by ring
    rw [heq, Nat.add_mul_mod_self_left, Nat.mod_eq_of_lt hrec]
  have hdiv2 : (j * c + k) / c = j := by
    have heq : j * c + k = k + c * j := by ring
    rw [heq, Nat.add_mul_div_left _ _ hc, Nat.div_eq_of_lt hk]; omega
  have hmod2 : (i * (w * c) + j * c + k) % c = k := by
    have heq : i * (w * c) + j * c + k = k + c * (i * w + j) := by ring
    rw [heq, Nat.add_mul_mod_self_left, Nat.mod_eq_of_lt hk]
  rw [hdiv, hmod, hdiv2, hmod2]

theorem Image.ofFn_congr {h w c : ℕ} {f g : ℕ → ℕ → ℕ → ℕ}
    (hfg : ∀ i j k, i < h → j < w → k < c → f i j k = g i j k) :
    Image.ofFn h w c f = Image.ofFn h w c g := by
  unfold Image.ofFn
  congr 1
  apply List.map_congr_left
  intro idx hidx
  rw [List.mem_range] at hidx
  have hassoc : h * w * c = h * (w * c) := by ring
  have hpos : 0 < h * (w * c) := by omega
  have hwc : 0 < w * c := by
    rcases Nat.eq_zero_or_pos (w * c) with h0 | h0
    · rw [h0, Nat.mul_zero] at hpos; omega
    · exact h0
  have hc : 0 < c := by
    rcases Nat.eq_zero_or_pos c with h0 | h0
    · rw [h0, Nat.mul_zero] at hwc; omega
    · exact h0
  apply hfg
  · apply Nat.div_lt_of_lt_mul
    calc idx < h * w * c := hidx
    _ = w * c * h := by ring
  · apply Nat.div_lt_of_lt_mul
    calc idx % (w * c) < w * c := Nat.mod_lt _ hwc
    _ = c * w := by ring
  · exact Nat.mod_lt _ hc

theorem Image.px_le (img : Image) (h8 : img.isUint8) (i j k : ℕ) :
    img.px i j k ≤ 255 := by
  unfold Image.px
  rcases lt_or_ge (i * (img.w * img.c) + j * img.c + k) img.data.length
    with hlt | hge
  · rw [List.getD_eq_getElem _ _ hlt]
    exact h8 _ (List.getElem_mem hlt)
  · rw [List.getD_eq_getElem?_getD]
    rw [List.getElem?_eq_none (by omega)]
    simp

theorem projHueSample_bounds (s : ℤ) (h1 : -255 ≤ s) (h2 : s ≤ 255) :
    -180 ≤ projHueSample s ∧ projHueSample s ≤ 180 := by
  have hcomp : ((255 * 180 : ℤ)) / 255 = 180 := by decide
  have key : ∀ t : ℤ, 0 ≤ t → t ≤ 255 →
      0 ≤ (t * 180).tdiv 255 ∧ (t * 180).tdiv 255 ≤ 180 := by
    intro t ht0 ht255
    rw [Int.tdiv_eq_ediv (by positivity) (by norm_num)]
    constructor
    · exact Int.ediv_nonneg (by positivity) (by norm_num)
    · calc (t * 180) / 255 ≤ (255 * 180) / 255 :=
        Int.ediv_le_ediv (by norm_num) (by nlinarith)
      _ = 180 := hcomp
  unfold projHueSample
  rcases le_or_lt 0 s with hs | hs
  · have := key s hs h2
    omega
  · have hneg : s * 180 = -((-s) * 180) := by ring
    rw [hneg, Int.neg_tdiv]
    have := key (-s) (by omega) (by omega)
    omega

theorem lut_hue_table_row (t : ℕ) (ht : t < 511) :
    AddToHueAndSaturation.generate_lut_table.1.getD t []
      = (List.range 256).map
          (fun (v : ℕ) => ((↑v + ((t : ℤ) - 255)) % 180).toNat) := by
  simp only [AddToHueAndSaturation.generate_lut_table]
  rw [List.getD_eq_getElem _ _
    (by rw [List.length_map, List.length_range]; omega)]
  rw [List.getElem_map, List.getElem_range]
  apply List.map_congr_left
  intro v hv
  rw [if_pos ht]

theorem lut_sat_table_row (t : ℕ) (ht : t < 511) :
    AddToHueAndSaturation.generate_lut_table.2.getD t []
      = (List.range 256).map
          (fun (v : ℕ) => (max 0 (min 255 (↑v + ((t : ℤ) - 255)))).toNat) := by
  simp only [AddToHueAndSaturation.generate_lut_table]
  rw [List.getD_eq_getElem _ _
    (by rw [List.length_map, List.length_range]; omega)]
  rw [List.getElem_map, List.getElem_range]
  apply List.map_congr_left
  intro v hv
  rw [if_pos ht]

theorem lut_hue_lookup (s : ℤ) (h1 : -255 ≤ s) (h2 : s ≤ 255)
    (v : ℕ) (hv : v < 256) :
    cv2LUT (AddToHueAndSaturation.generate_lut_table.1.getD
      (255 + s).toNat []) v = (((v : ℤ) + s) % 180).toNat := by
  rw [lut_hue_table_row _ (by omega)]
  unfold cv2LUT
  rw [List.getD_eq_getElem _ _
    (by rw [List.length_map, List.length_range]; omega)]
  rw [List.getElem_map, List.getElem_range]
  congr 1
  omega

theorem lut_sat_lookup (s : ℤ) (h1 : -255 ≤ s) (h2 : s ≤ 255)
    (v : ℕ) (hv : v < 256) :
    cv2LUT (AddToHueAndSaturation.generate_lut_table.2.getD
      (255 + s).toNat []) v = (max 0 (min 255 ((v : ℤ) + s))).toNat := by
  rw [lut_sat_table_row _ (by omega)]
  unfold cv2LUT
  rw [List.getD_eq_getElem _ _
    (by rw [List.length_map, List.length_range]; omega)]
  rw [List.getElem_map, List.getElem_range]
  congr 1
  omega

theorem lut_hue_row_wrap :
    AddToHueAndSaturation.generate_lut_table.1.getD 435 []
      = AddToHueAndSaturation.generate_lut_table.1.getD 255 [] := by
  rw [lut_hue_table_row 435 (by omega), lut_hue_table_row 255 (by omega)]
  apply List.map_congr_left
  intro v hv
  congr 1
  omega

theorem roundHalfEven_ge (x : ℚ) : x - 1/2 ≤ (roundHalfEven x : ℚ) := by
  have h1 : ((⌊x⌋ : ℤ) : ℚ) ≤ x := Int.floor_le x
  have h2 : x < (⌊x⌋ : ℚ) + 1 := Int.lt_floor_add_one x
  unfold roundHalfEven
  split_ifs with ha hb hc
  · linarith
  · push_cast
    linarith
  · linarith
  · push_cast
    linarith

theorem roundHalfEven_le (x : ℚ) : (roundHalfEven x : ℚ) ≤ x + 1/2 := by
  have h1 : ((⌊x⌋ : ℤ) : ℚ) ≤ x := Int.floor_le x
  have h2 : x < (⌊x⌋ : ℚ) + 1 := Int.lt_floor_add_one x
  unfold roundHalfEven
  split_ifs with ha hb hc
  · linarith
  · push_cast
    linarith
  · linarith
  · push_cast
    linarith

theorem natLog2_bracket (f : ℕ) : ∀ (n : ℕ), 1 ≤ n → n ≤ f →
    2 ^ natLog2 f n ≤ n ∧ n < 2 ^ (natLog2 f n + 1) := by
  induction f with
  | zero => intro n h1 h2; omega
  | succ f ih =>
    intro n h1 h2
    by_cases hn : n < 2
    · have hval : natLog2 (f + 1) n = 0 := by
        show (if n < 2 then 0 else natLog2 f (n / 2) + 1) = 0
        rw [if_pos hn]
      rw [hval]
      constructor
      · simpa using h1
      · have : n < 2 := hn
        simpa using this
    · have hrec : natLog2 (f + 1) n = natLog2 f (n / 2) + 1 := by
        show (if n < 2 then 0 else natLog2 f (n / 2) + 1) = _
        rw [if_neg hn]
      have h1' : 1 ≤ n / 2 := by omega
      have h2' : n / 2 ≤ f := by omega
      obtain ⟨hl, hh⟩ := ih (n / 2) h1' h2'
      rw [hrec]
      have hp1 : 2 ^ (natLog2 f (n / 2) + 1) = 2 * 2 ^ natLog2 f (n / 2) := by
        ring
      have hp2 : 2 ^ (natLog2 f (n / 2) + 1 + 1)
          = 2 * 2 ^ (natLog2 f (n / 2) + 1) := by
        ring
      omega

theorem qlog2_bracket {x : ℚ} (hx : 0 < x) :
    (2:ℚ) ^ (qlog2 x) ≤ x ∧ x < (2:ℚ) ^ (qlog2 x + 1) := by
  have hnum : 0 < x.num := Rat.num_pos.mpr hx
  have hden : 0 < x.den := x.pos
  set nn := x.num.toNat with hnn_def
  have hnn1 : 1 ≤ nn := by omega
  have hnncast : ((nn : ℕ) : ℚ) = (x.num : ℚ) := by
    rw [hnn_def]
    exact_mod_cast congrArg (fun z => ((z : ℤ) : ℚ)) (Int.toNat_of_nonneg hnum.le)
  have hx_eq : x = (nn : ℚ) / (x.den : ℚ) := by
    rw [hnncast]
    exact_mod_cast (Rat.num_div_den x).symm
  obtain ⟨haL, haU⟩ := natLog2_bracket nn nn hnn1 (le_refl nn)
  obtain ⟨hbL, hbU⟩ := natLog2_bracket x.den x.den hden (le_refl x.den)
  set a := natLog2 nn nn with ha_def
  set b := natLog2 x.den x.den with hb_def
  have hdenq : (0:ℚ) < (x.den : ℚ) := by exact_mod_cast hden
  have hnnq : (0:ℚ) < (nn : ℚ) := by exact_mod_cast hnn1
  have h2a : (0:ℚ) < (2:ℚ) ^ (a:ℕ) := by positivity
  have h2b : (0:ℚ) < (2:ℚ) ^ (b:ℕ) := by positivity
  have haLq : (2:ℚ) ^ (a:ℕ) ≤ (nn : ℚ) := by exact_mod_cast haL
  have haUq : (nn : ℚ) < (2:ℚ) ^ (a + 1 : ℕ) := by exact_mod_cast haU
  have hbLq : (2:ℚ) ^ (b:ℕ) ≤ (x.den : ℚ) := by exact_mod_cast hbL
  have hbUq : (x.den : ℚ) < (2:ℚ) ^ (b + 1 : ℕ) := by exact_mod_cast hbU
  have hz : ∀ (m : ℕ), (2:ℚ) ^ ((m : ℤ)) = (2:ℚ) ^ (m : ℕ) := fun m =>
    zpow_natCast 2 m
  have hzsub : ∀ (s t : ℤ), (2:ℚ) ^ (s - t) = (2:ℚ) ^ s / (2:ℚ) ^ t :=
    fun s t => zpow_sub₀ (by norm_num) s t
  have hq_unfold : qlog2 x = if 2 ^ a * x.den ≤ nn * 2 ^ b
      then (a : ℤ) - b else (a : ℤ) - b - 1 := rfl
  by_cases hcond : 2 ^ a * x.den ≤ nn * 2 ^ b
  · rw [hq_unfold, if_pos hcond]
    have hcondq : (2:ℚ) ^ (a:ℕ) * (x.den : ℚ) ≤ (nn : ℚ) * (2:ℚ) ^ (b:ℕ) := by
      exact_mod_cast hcond
    constructor
    · rw [hzsub, hz a, hz b, hx_eq, div_le_div_iff₀ h2b hdenq]
      linarith
    · have hstep : (a : ℤ) - b + 1 = ((a + 1 : ℕ) : ℤ) - b := by push_cast; ring
      rw [hstep, hzsub, hz (a + 1), hz b, hx_eq, div_lt_div_iff₀ hdenq h2b]
      have h1 : (nn : ℚ) * (2:ℚ) ^ (b:ℕ) < (2:ℚ) ^ (a + 1 : ℕ) * (2:ℚ) ^ (b:ℕ) :=
        mul_lt_mul_of_pos_right haUq h2b
      have h2 : (2:ℚ) ^ (a + 1 : ℕ) * (2:ℚ) ^ (b:ℕ)
          ≤ (2:ℚ) ^ (a + 1 : ℕ) * (x.den : ℚ) := by
        have hpos : (0:ℚ) < (2:ℚ) ^ (a + 1 : ℕ) := by positivity
        exact mul_le_mul_of_nonneg_left hbLq hpos.le
      linarith
  · rw [hq_unfold, if_neg hcond]
    push_neg at hcond
    have hcondq : (nn : ℚ) * (2:ℚ) ^ (b:ℕ) < (2:ℚ) ^ (a:ℕ) * (x.den : ℚ) := by
      exact_mod_cast hcond
    constructor
    · have hstep : (a : ℤ) - b - 1 = (a : ℤ) - ((b + 1 : ℕ) : ℤ) := by
        push_cast; ring
      rw [hstep, hzsub, hz a, hz (b + 1), hx_eq, div_le_div_iff₀ (by positivity) hdenq]
      have h1 : (2:ℚ) ^ (a:ℕ) * (x.den : ℚ) < (2:ℚ) ^ (a:ℕ) * (2:ℚ) ^ (b + 1 : ℕ) :=
        mul_lt_mul_of_pos_left hbUq h2a
      have h2 : (2:ℚ) ^ (a:ℕ) * (2:ℚ) ^ (b + 1 : ℕ)
          ≤ (nn : ℚ) * (2:ℚ) ^ (b + 1 : ℕ) := by
        have hpos : (0:ℚ) < (2:ℚ) ^ (b + 1 : ℕ) := by positivity
        exact mul_le_mul_of_nonneg_right haLq hpos.le
      linarith
    · have hstep : (a : ℤ) - b - 1 + 1 = (a : ℤ) - b := by ring
      rw [hstep, hzsub, hz a, hz b, hx_eq, div_lt_div_iff₀ hdenq h2b]
      linarith

theorem qlog2_mono {x y : ℚ} (hx : 0 < x) (hxy : x ≤ y) :
    qlog2 x ≤ qlog2 y := by
  have hy : 0 < y := lt_of_lt_of_le hx hxy
  obtain ⟨hxL, _⟩ := qlog2_bracket hx
  obtain ⟨_, hyU⟩ := qlog2_bracket hy
  by_contra hgt
  push_neg at hgt
  have hle : qlog2 y + 1 ≤ qlog2 x := by omega
  have h1 : (2:ℚ) ^ (qlog2 y + 1) ≤ (2:ℚ) ^ (qlog2 x) :=
    zpow_le_zpow_right₀ (by norm_num) hle
  linarith

theorem roundHalfEven_mono {s t : ℚ} (hst : s ≤ t) :
    roundHalfEven s ≤ roundHalfEven t := by
  by_contra hlt
  push_neg at hlt
  have h1 : (roundHalfEven t : ℚ) + 1 ≤ (roundHalfEven s : ℚ) := by
    exact_mod_cast hlt
  have h2 := roundHalfEven_le s
  have h3 := roundHalfEven_ge t
  have hts : t ≤ s := by linarith
  have heq : s = t := le_antisymm hst hts
  subst heq
  exact absurd hlt (lt_irrefl _)

theorem flRound_nonneg (p : ℕ) (x : ℚ) : 0 ≤ flRound p x := by
  unfold flRound
  split_ifs with h
  · exact le_refl 0
  · push_neg at h
    have hscpos : (0:ℚ) < 2 ^ (qlog2 x - p + 1) :=
      zpow_pos (by norm_num) _
    apply mul_nonneg _ hscpos.le
    have hs : 0 < x / 2 ^ (qlog2 x - p + 1) := div_pos h hscpos
    have hge := roundHalfEven_ge (x / 2 ^ (qlog2 x - p + 1))
    have hnn : (0:ℤ) ≤ roundHalfEven (x / 2 ^ (qlog2 x - p + 1)) := by
      by_contra hneg
      push_neg at hneg
      have hle1 : roundHalfEven (x / 2 ^ (qlog2 x - p + 1)) ≤ -1 := by
        omega
      have : (roundHalfEven (x / 2 ^ (qlog2 x - p + 1)) : ℚ) ≤ -1 := by
        exact_mod_cast hle1
      linarith
    exact_mod_cast hnn

theorem flRound_le_mul {p : ℕ} {x : ℚ} (hx : 0 ≤ x) :
    flRound p x ≤ x + x * (2:ℚ) ^ (-(p:ℤ)) := by
  rcases eq_or_lt_of_le hx with heq | hpos
  · rw [← heq]
    unfold flRound
    rw [if_pos (le_refl 0)]
    norm_num
  · unfold flRound
    rw [if_neg (not_le.mpr hpos)]
    have h2e2 : (2:ℚ) ^ (qlog2 x) ≤ x := (qlog2_bracket hpos).1
    set e := qlog2 x with he
    set sc : ℚ := (2:ℚ) ^ (e - p + 1) with hsc_def
    have hscpos : 0 < sc := zpow_pos (by norm_num) _
    have hr := roundHalfEven_le (x / sc)
    have h1 : (roundHalfEven (x / sc) : ℚ) * sc ≤ (x / sc + 1/2) * sc :=
      mul_le_mul_of_nonneg_right hr hscpos.le
    have hdm : x / sc * sc = x := div_mul_cancel₀ x (ne_of_gt hscpos)
    have hexp : (x / sc + 1/2) * sc = x + sc / 2 := by
      rw [add_mul, hdm]
      ring
    have hsc2 : sc / 2 = (2:ℚ) ^ e * (2:ℚ) ^ (-(p:ℤ)) := by
      rw [hsc_def, show e - p + 1 = (e + -(p:ℤ)) + 1 by ring,
        zpow_add_one₀ (by norm_num : (2:ℚ) ≠ 0),
        zpow_add₀ (by norm_num : (2:ℚ) ≠ 0)]
      ring
    have h3 : (2:ℚ) ^ e * (2:ℚ) ^ (-(p:ℤ)) ≤ x * (2:ℚ) ^ (-(p:ℤ)) :=
      mul_le_mul_of_nonneg_right h2e2
        (zpow_pos (by norm_num : (0:ℚ) < 2) _).le
    linarith

theorem flRound_ge_mul {p : ℕ} {x : ℚ} (hx : 0 ≤ x) :
    x - x * (2:ℚ) ^ (-(p:ℤ)) ≤ flRound p x := by
  rcases eq_or_lt_of_le hx with heq | hpos
  · rw [← heq]
    unfold flRound
    rw [if_pos (le_refl 0)]
    norm_num
  · unfold flRound
    rw [if_neg (not_le.mpr hpos)]
    have h2e2 : (2:ℚ) ^ (qlog2 x) ≤ x := (qlog2_bracket hpos).1
    set e := qlog2 x with he
    set sc : ℚ := (2:ℚ) ^ (e - p + 1) with hsc_def
    have hscpos : 0 < sc := zpow_pos (by norm_num) _
    have hr := roundHalfEven_ge (x / sc)
    have h1 : (x / sc - 1/2) * sc ≤ (roundHalfEven (x / sc) : ℚ) * sc :=
      mul_le_mul_of_nonneg_right hr hscpos.le
    have hdm : x / sc * sc = x := div_mul_cancel₀ x (ne_of_gt hscpos)
    have hexp : (x / sc - 1/2) * sc = x - sc / 2 := by
      rw [sub_mul, hdm]
      ring
    have hsc2 : sc / 2 = (2:ℚ) ^ e * (2:ℚ) ^ (-(p:ℤ)) := by
      rw [hsc_def, show e - p + 1 = (e + -(p:ℤ)) + 1 by ring,
        zpow_add_one₀ (by norm_num : (2:ℚ) ≠ 0),
        zpow_add₀ (by norm_num : (2:ℚ) ≠ 0)]
      ring
    have h3 : (2:ℚ) ^ e * (2:ℚ) ^ (-(p:ℤ)) ≤ x * (2:ℚ) ^ (-(p:ℤ)) :=
      mul_le_mul_of_nonneg_right h2e2
        (zpow_pos (by norm_num : (0:ℚ) < 2) _).le
    linarith

theorem flRound_le_pow {p : ℕ} {x : ℚ} (hx : 0 < x) :
    flRound p x ≤ (2:ℚ) ^ (qlog2 x + 1) := by
  unfold flRound
  rw [if_neg (not_le.mpr hx)]
  set e := qlog2 x with he
  set sc : ℚ := (2:ℚ) ^ (e - p + 1) with hsc_def
  have hscpos : 0 < sc := zpow_pos (by norm_num) _
  have hxlt2 : x < (2:ℚ) ^ (e + 1) := by
    rw [he]
    exact (qlog2_bracket hx).2
  have hfac : (2:ℚ) ^ (e + 1) = sc * (2:ℚ) ^ (p:ℕ) := by
    rw [hsc_def, ← zpow_natCast (2:ℚ) p, ← zpow_add₀ (by norm_num : (2:ℚ) ≠ 0)]
    congr 1
    ring
  have hdiv : x / sc < (2:ℚ) ^ (p:ℕ) := by
    rw [div_lt_iff₀ hscpos]
    calc x < (2:ℚ) ^ (e + 1) := hxlt2
    _ = sc * (2:ℚ) ^ (p:ℕ) := hfac
    _ = (2:ℚ) ^ (p:ℕ) * sc := by ring
  have hrle := roundHalfEven_le (x / sc)
  have hint : roundHalfEven (x / sc) ≤ 2 ^ p := by
    by_contra hgt
    push_neg at hgt
    have hcast : ((2:ℤ) ^ p : ℚ) + 1 ≤ (roundHalfEven (x / sc) : ℚ) := by
      exact_mod_cast hgt
    have hcast2 : ((2:ℤ) ^ p : ℚ) = (2:ℚ) ^ (p:ℕ) := by push_cast; rfl
    rw [hcast2] at hcast
    linarith
  have hint2 : (roundHalfEven (x / sc) : ℚ) ≤ (2:ℚ) ^ (p:ℕ) := by
    have : ((2:ℤ) ^ p : ℚ) = (2:ℚ) ^ (p:ℕ) := by push_cast; rfl
    rw [← this]
    exact_mod_cast hint
  calc (roundHalfEven (x / sc) : ℚ) * sc
      ≤ (2:ℚ) ^ (p:ℕ) * sc := mul_le_mul_of_nonneg_right hint2 hscpos.le
  _ = (2:ℚ) ^ (e + 1) := by rw [hfac]; ring

theorem pow_log_le_flRound {p : ℕ} (hp : 1 ≤ p) {x : ℚ} (hx : 0 < x) :
    (2:ℚ) ^ (qlog2 x) ≤ flRound p x := by
  unfold flRound
  rw [if_neg (not_le.mpr hx)]
  set e := qlog2 x with he
  set sc : ℚ := (2:ℚ) ^ (e - p + 1) with hsc_def
  have hscpos : 0 < sc := zpow_pos (by norm_num) _
  have h2e2 : (2:ℚ) ^ e ≤ x := by
    rw [he]
    exact (qlog2_bracket hx).1
  have hfac : (2:ℚ) ^ e = sc * (2:ℚ) ^ ((p - 1 : ℕ) : ℕ) := by
    rw [hsc_def, ← zpow_natCast (2:ℚ) (p - 1), ← zpow_add₀ (by norm_num : (2:ℚ) ≠ 0)]
    congr 1
    omega
  have hdiv : (2:ℚ) ^ ((p - 1 : ℕ) : ℕ) ≤ x / sc := by
    rw [le_div_iff₀ hscpos]
    calc (2:ℚ) ^ ((p - 1 : ℕ) : ℕ) * sc = sc * (2:ℚ) ^ ((p - 1 : ℕ) : ℕ) := by
          ring
    _ = (2:ℚ) ^ e := hfac.symm
    _ ≤ x := h2e2
  have hrge := roundHalfEven_ge (x / sc)
  have hint : (2:ℤ) ^ (p - 1) ≤ roundHalfEven (x / sc) := by
    by_contra hgt
    push_neg at hgt
    have hcast : (roundHalfEven (x / sc) : ℚ) + 1 ≤ ((2:ℤ) ^ (p - 1) : ℚ) := by
      exact_mod_cast hgt
    have hcast2 : ((2:ℤ) ^ (p - 1) : ℚ) = (2:ℚ) ^ ((p - 1 : ℕ) : ℕ) := by
      push_cast
      rfl
    rw [hcast2] at hcast
    linarith
  have hint2 : (2:ℚ) ^ ((p - 1 : ℕ) : ℕ) ≤ (roundHalfEven (x / sc) : ℚ) := by
    have hcast2 : ((2:ℤ) ^ (p - 1) : ℚ) = (2:ℚ) ^ ((p - 1 : ℕ) : ℕ) := by
      push_cast
      rfl
    rw [← hcast2]
    exact_mod_cast hint
  calc (2:ℚ) ^ e = (2:ℚ) ^ ((p - 1 : ℕ) : ℕ) * sc := by rw [hfac]; ring
  _ ≤ (roundHalfEven (x / sc) : ℚ) * sc :=
      mul_le_mul_of_nonneg_right hint2 hscpos.le

theorem flRound_mono {p : ℕ} (hp : 1 ≤ p) {x y : ℚ} (hxy : x ≤ y) :
    flRound p x ≤ flRound p y := by
  rcases le_or_lt x 0 with hx | hx
  · have hx0 : flRound p x = 0 := by unfold flRound; rw [if_pos hx]
    rw [hx0]
    exact flRound_nonneg p y
  · have hy : 0 < y := lt_of_lt_of_le hx hxy
    have hee : qlog2 x ≤ qlog2 y := qlog2_mono hx hxy
    rcases eq_or_lt_of_le hee with heq | hlt
    · unfold flRound
      rw [if_neg (not_le.mpr hx), if_neg (not_le.mpr hy), ← heq]
      set sc : ℚ := (2:ℚ) ^ (qlog2 x - p + 1) with hsc_def
      have hscpos : 0 < sc := zpow_pos (by norm_num) _
      have hdiv : x / sc ≤ y / sc := (div_le_div_iff_of_pos_right hscpos).mpr hxy
      have hrm := roundHalfEven_mono hdiv
      have hrm2 : (roundHalfEven (x / sc) : ℚ) ≤ (roundHalfEven (y / sc) : ℚ) := by
        exact_mod_cast hrm
      exact mul_le_mul_of_nonneg_right hrm2 hscpos.le
    · calc flRound p x ≤ (2:ℚ) ^ (qlog2 x + 1) := flRound_le_pow hx
      _ ≤ (2:ℚ) ^ (qlog2 y) :=
          zpow_le_zpow_right₀ (by norm_num) (by omega)
      _ ≤ flRound p y := pow_log_le_flRound hp hy

theorem floor_flRound_div_eq {q32 u : ℚ} {b : ℤ} (hq1 : 1 ≤ q32)
    (hu0 : 0 ≤ u) (hu255 : u ≤ 255)
    (hlo : (b:ℚ) * q32 + 1/1024 ≤ u) (hhi : u ≤ ((b:ℚ) + 1) * q32 - 1/1024) :
    ⌊flRound 24 (u / q32)⌋ = b := by
  have hq0 : (0:ℚ) < q32 := by linarith
  have hE : (2:ℚ) ^ (-((24:ℕ):ℤ)) = 1/16777216 := by norm_num
  set x : ℚ := u / q32 with hx_def
  have hx0 : 0 ≤ x := div_nonneg hu0 hq0.le
  have hxq : x * q32 = u := div_mul_cancel₀ u (ne_of_gt hq0)
  have hxx : x * 1 ≤ x * q32 := mul_le_mul_of_nonneg_left hq1 hx0
  have hx255 : x ≤ 255 := by linarith
  have haup : flRound 24 x ≤ x + x * (1/16777216) := by
    have h := @flRound_le_mul 24 x hx0
    rw [hE] at h
    exact h
  have halo : x - x * (1/16777216) ≤ flRound 24 x := by
    have h := @flRound_ge_mul 24 x hx0
    rw [hE] at h
    exact h
  have hup : flRound 24 x * q32 ≤ u + 255 * (1/16777216) := by
    have h1 : flRound 24 x * q32 ≤ (x + x * (1/16777216)) * q32 :=
      mul_le_mul_of_nonneg_right haup hq0.le
    have h2 : (x + x * (1/16777216)) * q32 = u + u * (1/16777216) := by
      calc (x + x * (1/16777216)) * q32
          = x * q32 * (1 + 1/16777216) := by ring
      _ = u * (1 + 1/16777216) := by rw [hxq]
      _ = u + u * (1/16777216) := by ring
    linarith
  have hlo2 : u - 255 * (1/16777216) ≤ flRound 24 x * q32 := by
    have h1 : (x - x * (1/16777216)) * q32 ≤ flRound 24 x * q32 :=
      mul_le_mul_of_nonneg_right halo hq0.le
    have h2 : (x - x * (1/16777216)) * q32 = u - u * (1/16777216) := by
      calc (x - x * (1/16777216)) * q32
          = x * q32 * (1 - 1/16777216) := by ring
      _ = u * (1 - 1/16777216) := by rw [hxq]
      _ = u - u * (1/16777216) := by ring
    linarith
  have hblt : (b:ℚ) < flRound 24 x := by
    have h1 : (b:ℚ) * q32 < flRound 24 x * q32 := by linarith
    exact lt_of_mul_lt_mul_right h1 hq0.le
  have hlt : flRound 24 x < (b:ℚ) + 1 := by
    have h1 : flRound 24 x * q32 < ((b:ℚ) + 1) * q32 := by linarith
    exact lt_of_mul_lt_mul_right h1 hq0.le
  have h1 : b ≤ ⌊flRound 24 x⌋ := Int.le_floor.mpr hblt.le
  have h2 : ⌊flRound 24 x⌋ < b + 1 := Int.floor_lt.mpr (by push_cast; exact hlt)
  omega

theorem uniformQuantCore_stable (q32 h32 : ℚ)
    (hq1 : 1 + 1/256 ≤ q32) (hq2 : q32 ≤ 129)
    (hh1 : q32/2 - 130/16777216 ≤ h32) (hh2 : h32 ≤ q32/2 + 130/16777216)
    (w : ℚ) (hw0 : 0 ≤ w) (hw255 : w ≤ 255) :
    uniformQuantCore q32 h32
        ((max 0 (min 255 (uniformQuantCore q32 h32 w)) : ℤ) : ℚ)
      = uniformQuantCore q32 h32 w := by
  have hq0 : (0:ℚ) < q32 := by linarith
  have hE : (2:ℚ) ^ (-((24:ℕ):ℤ)) = 1/16777216 := by norm_num
  have hcore_w : uniformQuantCore q32 h32 w
      = roundHalfEven (flRound 24 (flRound 24
          ((⌊flRound 24 (w / q32)⌋ : ℚ) * q32) + h32)) := rfl
  set x : ℚ := w / q32 with hx_def
  have hx0 : 0 ≤ x := div_nonneg hw0 hq0.le
  have hxq : x * q32 = w := div_mul_cancel₀ w (ne_of_gt hq0)
  set a : ℚ := flRound 24 x with ha_def
  have ha0 : 0 ≤ a := flRound_nonneg _ _
  have haup : a ≤ x + x * (1/16777216) := by
    have h := @flRound_le_mul 24 x hx0
    rw [hE] at h
    exact h
  set b : ℤ := ⌊a⌋ with hb_def
  have hb0 : 0 ≤ b := Int.floor_nonneg.mpr ha0
  have hb0q : (0:ℚ) ≤ (b:ℚ) := by exact_mod_cast hb0
  have hba : (b:ℚ) ≤ a := Int.floor_le a
  have hbq_up : (b:ℚ) * q32 ≤ 256 := by
    have h1 : (b:ℚ) * q32 ≤ a * q32 := mul_le_mul_of_nonneg_right hba hq0.le
    have h2 : a * q32 ≤ (x + x * (1/16777216)) * q32 :=
      mul_le_mul_of_nonneg_right haup hq0.le
    have h3 : (x + x * (1/16777216)) * q32 = w + w * (1/16777216) := by
      calc (x + x * (1/16777216)) * q32
          = x * q32 * (1 + 1/16777216) := by ring
      _ = w * (1 + 1/16777216) := by rw [hxq]
      _ = w + w * (1/16777216) := by ring
    linarith
  have hbq0 : (0:ℚ) ≤ (b:ℚ) * q32 := mul_nonneg hb0q hq0.le
  set c : ℚ := flRound 24 ((b:ℚ) * q32) with hc_def
  have hc0 : 0 ≤ c := flRound_nonneg _ _
  have hc_up : c ≤ (b:ℚ) * q32 + 256 * (1/16777216) := by
    have h1 := @flRound_le_mul 24 ((b:ℚ) * q32) hbq0
    rw [hE] at h1
    linarith
  have hc_lo : (b:ℚ) * q32 - 256 * (1/16777216) ≤ c := by
    have h1 := @flRound_ge_mul 24 ((b:ℚ) * q32) hbq0
    rw [hE] at h1
    linarith
  have hh_up : h32 ≤ 65 := by linarith
  have hh0 : (0:ℚ) ≤ h32 := by linarith
  set d : ℚ := flRound 24 (c + h32) with hd_def
  have hch0 : (0:ℚ) ≤ c + h32 := by linarith
  have hch_up : c + h32 ≤ 322 := by linarith
  have hd_up : d ≤ c + h32 + 322 * (1/16777216) := by
    have h1 := @flRound_le_mul 24 (c + h32) hch0
    rw [hE] at h1
    linarith
  have hd_lo : c + h32 - 322 * (1/16777216) ≤ d := by
    have h1 := @flRound_ge_mul 24 (c + h32) hch0
    rw [hE] at h1
    linarith
  have hdc_up : d ≤ (b:ℚ) * q32 + q32/2 + 1/4096 := by linarith
  have hdc_lo : (b:ℚ) * q32 + q32/2 - 1/4096 ≤ d := by linarith
  set r : ℤ := roundHalfEven d with hr_def
  have hrge := roundHalfEven_ge d
  have hrle := roundHalfEven_le d
  rw [← hr_def] at hrge hrle
  have hbq1 : ((b:ℚ) + 1) * q32 = (b:ℚ) * q32 + q32 := by ring
  have hr_lo : (b:ℚ) * q32 + 7/4096 ≤ (r:ℚ) := by linarith
  have hr_up : (r:ℚ) ≤ ((b:ℚ) + 1) * q32 - 7/4096 := by linarith
  have hr0 : 0 ≤ r := by
    have hpos : (0:ℚ) < (r:ℚ) := by linarith
    exact_mod_cast hpos.le
  have hout_eq : max 0 (min 255 r) = min 255 r := by omega
  rw [hcore_w, hout_eq]
  rcases le_or_lt r 255 with hr255 | hr255
  · have hmin : min 255 r = r := by omega
    rw [hmin]
    have hrq : (0:ℚ) ≤ (r:ℚ) := by exact_mod_cast hr0
    have hr255q : (r:ℚ) ≤ 255 := by exact_mod_cast hr255
    have hb2 : ⌊flRound 24 (((r:ℤ):ℚ) / q32)⌋ = b :=
      floor_flRound_div_eq (by linarith) hrq hr255q
        (by linarith) (by linarith)
    unfold uniformQuantCore
    rw [hb2, ← hc_def, ← hd_def]
  · have hmin : min 255 r = 255 := by omega
    rw [hmin]
    have hmono : a ≤ flRound 24 ((255:ℚ) / q32) := by
      rw [ha_def]
      apply flRound_mono (by norm_num)
      rw [hx_def]
      exact (div_le_div_iff_of_pos_right hq0).mpr hw255
    have hbB : b ≤ ⌊flRound 24 ((255:ℚ) / q32)⌋ := by
      rw [hb_def]
      exact Int.floor_le_floor hmono
    have h255q0 : (0:ℚ) ≤ 255 / q32 := div_nonneg (by norm_num) hq0.le
    have hBb : ⌊flRound 24 ((255:ℚ) / q32)⌋ ≤ b := by
      by_contra hgt
      push_neg at hgt
      have h1 : ((b:ℚ) + 1) ≤ (⌊flRound 24 ((255:ℚ) / q32)⌋ : ℚ) := by
        exact_mod_cast hgt
      have h2 : (⌊flRound 24 ((255:ℚ) / q32)⌋ : ℚ)
          ≤ flRound 24 ((255:ℚ) / q32) := Int.floor_le _
      have h3 : flRound 24 ((255:ℚ) / q32)
          ≤ 255 / q32 + (255 / q32) * (1/16777216) := by
        have h := @flRound_le_mul 24 ((255:ℚ) / q32) h255q0
        rw [hE] at h
        exact h
      have hdm : 255 / q32 * q32 = 255 :=
        div_mul_cancel₀ (255:ℚ) (ne_of_gt hq0)
      have h4 : ((b:ℚ) + 1) * q32 ≤ 255 + 255 * (1/16777216) := by
        have hm := mul_le_mul_of_nonneg_right
          (le_trans h1 (le_trans h2 h3)) hq0.le
        calc ((b:ℚ) + 1) * q32
            ≤ (255 / q32 + (255 / q32) * (1/16777216)) * q32 := hm
        _ = (255 / q32 * q32) * (1 + 1/16777216) := by ring
        _ = 255 * (1 + 1/16777216) := by rw [hdm]
        _ = 255 + 255 * (1/16777216) := by ring
      have h5 : (r:ℚ) < 256 := by linarith
      have h6 : r < 256 := by exact_mod_cast h5
      omega
    have hBb2 : ⌊flRound 24 ((255:ℚ) / q32)⌋ = b := le_antisymm hBb hbB
    have hc255 : (((255:ℤ)):ℚ) = (255:ℚ) := by norm_num
    unfold uniformQuantCore
    rw [hc255, hBb2, ← hc_def, ← hd_def]

theorem uniformQuantPixel_idem (n v : ℕ) (h2 : 2 ≤ n) (h255 : n ≤ 255)
    (hv : v ≤ 255) :
    uniformQuantPixel n (uniformQuantPixel n v) = uniformQuantPixel n v := by
  have hE24 : (2:ℚ) ^ (-((24:ℕ):ℤ)) = 1/16777216 := by norm_num
  have hE53 : (2:ℚ) ^ (-((53:ℕ):ℤ)) = 1/9007199254740992 := by norm_num
  have hn0 : (0:ℚ) < (n:ℚ) := by exact_mod_cast (by omega : 0 < n)
  have hn2 : (2:ℚ) ≤ (n:ℚ) := by exact_mod_cast h2
  have hn255 : (n:ℚ) ≤ 255 := by exact_mod_cast h255
  set q0 : ℚ := 256 / (n:ℚ) with hq0_def
  have hq0pos : 0 < q0 := div_pos (by norm_num) hn0
  have hq0_lo : 256/255 ≤ q0 := by
    rw [hq0_def, div_le_div_iff₀ (by norm_num) hn0]
    linarith
  have hq0_hi : q0 ≤ 128 := by
    rw [hq0_def, div_le_iff₀ hn0]
    linarith
  set q64 : ℚ := flRound 53 q0 with hq64_def
  have hq64_up : q64 ≤ q0 + q0 * (1/9007199254740992) := by
    have h := @flRound_le_mul 53 q0 hq0pos.le
    rw [hE53] at h
    exact h
  have hq64_lo : q0 - q0 * (1/9007199254740992) ≤ q64 := by
    have h := @flRound_ge_mul 53 q0 hq0pos.le
    rw [hE53] at h
    exact h
  have hq64_b1 : q64 ≤ 129 := by linarith
  have hq64_nn : (0:ℚ) ≤ q64 := flRound_nonneg _ _
  set q32 : ℚ := flRound 24 q64 with hq32_def
  have hq32_up : q32 ≤ q64 + q64 * (1/16777216) := by
    have h := @flRound_le_mul 24 q64 hq64_nn
    rw [hE24] at h
    exact h
  have hq32_lo : q64 - q64 * (1/16777216) ≤ q32 := by
    have h := @flRound_ge_mul 24 q64 hq64_nn
    rw [hE24] at h
    exact h
  have hq1 : 1 + 1/256 ≤ q32 := by linarith
  have hq2 : q32 ≤ 129 := by linarith
  set h32 : ℚ := flRound 24 (q64 / 2) with hh32_def
  have hq64h0 : (0:ℚ) ≤ q64 / 2 := by linarith
  have hh32_up : h32 ≤ q64 / 2 + (q64 / 2) * (1/16777216) := by
    have h := @flRound_le_mul 24 (q64 / 2) hq64h0
    rw [hE24] at h
    exact h
  have hh32_lo : q64 / 2 - (q64 / 2) * (1/16777216) ≤ h32 := by
    have h := @flRound_ge_mul 24 (q64 / 2) hq64h0
    rw [hE24] at h
    exact h
  have hh1 : q32/2 - 130/16777216 ≤ h32 := by linarith
  have hh2 : h32 ≤ q32/2 + 130/16777216 := by linarith
  have hQv : uniformQuantPixel n v
      = (max 0 (min 255 (uniformQuantCore q32 h32 (v:ℚ)))).toNat := rfl
  set r : ℤ := uniformQuantCore q32 h32 (v:ℚ) with hr_def
  have hv0 : (0:ℚ) ≤ (v:ℚ) := by positivity
  have hv255 : (v:ℚ) ≤ 255 := by exact_mod_cast hv
  have hstable := uniformQuantCore_stable q32 h32 hq1 hq2 hh1 hh2 (v:ℚ)
    hv0 hv255
  rw [← hr_def] at hstable
  rw [hQv]
  have hQ2 : uniformQuantPixel n ((max 0 (min 255 r)).toNat)
      = (max 0 (min 255 (uniformQuantCore q32 h32
          (((max 0 (min 255 r)).toNat : ℕ) : ℚ)))).toNat := rfl
  rw [hQ2]
  have hcast : (((max 0 (min 255 r)).toNat : ℕ) : ℚ)
      = ((max 0 (min 255 r) : ℤ) : ℚ) := by
    rw [← Int.cast_natCast, Int.toNat_of_nonneg (le_max_left 0 _)]
  rw [hcast, hstable]


theorem convertLoop_all_ok
    (step : Image → Colorspace → Colorspace → Except Err Image) :
    ∀ (imgs : List Image) (ts fs : List Colorspace) (out : ℕ → Image),
      ts.length = imgs.length → fs.length = imgs.length →
      (∀ i, i < imgs.length →
        step (imgs.getD i ⟨0, 0, 0, []⟩) (ts.getD i .RGB) (fs.getD i .RGB)
          = .ok (out i)) →
      convertLoop step imgs ts fs
        = ((List.range imgs.length).map out, none) := by
  intro imgs
  induction imgs with
  | nil =>
    intro ts fs out _ _ _
    simp [convertLoop]
  | cons img rest ih =>
    intro ts fs out hts hfs hstep
    cases ts with
    | nil => simp at hts
    | cons t ts2 =>
      cases fs with
      | nil => simp at hfs
      | cons f fs2 =>
        have h0 : step img t f = .ok (out 0) := by
          have h := hstep 0 (by simp)
          rwa [List.getD_cons_zero, List.getD_cons_zero,
            List.getD_cons_zero] at h
        have hshift : ∀ i, i < rest.length →
            step (rest.getD i ⟨0, 0, 0, []⟩) (ts2.getD i .RGB)
              (fs2.getD i .RGB) = .ok (out (i + 1)) := by
          intro i hi
          have h := hstep (i + 1) (by simp; omega)
          rwa [List.getD_cons_succ, List.getD_cons_succ,
            List.getD_cons_succ] at h
        have hrec := ih ts2 fs2 (fun i => out (i + 1))
          (by simpa using hts) (by simpa using hfs) hshift
        simp only [convertLoop, h0, hrec]
        rw [List.length_cons, List.range_succ_eq_map]
        simp [List.map_map, Function.comp_def]

theorem convertLoop_first_fail
    (step : Image → Colorspace → Colorspace → Except Err Image) :
    ∀ (imgs : List Image) (ts fs : List Colorspace) (out : ℕ → Image)
      (k : ℕ) (e : Err),
      ts.length = imgs.length → fs.length = imgs.length →
      k < imgs.length →
      (∀ i, i < k →
        step (imgs.getD i ⟨0, 0, 0, []⟩) (ts.getD i .RGB) (fs.getD i .RGB)
          = .ok (out i)) →
      step (imgs.getD k ⟨0, 0, 0, []⟩) (ts.getD k .RGB) (fs.getD k .RGB)
        = .error e →
      convertLoop step imgs ts fs
        = ((List.range k).map out ++ imgs.drop k, some e) := by
  intro imgs
  induction imgs with
  | nil =>
    intro ts fs out k e _ _ hk _ _
    simp at hk
  | cons img rest ih =>
    intro ts fs out k e hts hfs hk hok hfail
    cases ts with
    | nil => simp at hts
    | cons t ts2 =>
      cases fs with
      | nil => simp at hfs
      | cons f fs2 =>
        cases k with
        | zero =>
          have h0 : step img t f = .error e := by
            rwa [List.getD_cons_zero, List.getD_cons_zero,
              List.getD_cons_zero] at hfail
          simp [convertLoop, h0]
        | succ k2 =>
          have h0 : step img t f = .ok (out 0) := by
            have h := hok 0 (by omega)
            rwa [List.getD_cons_zero, List.getD_cons_zero,
              List.getD_cons_zero] at h
          have hshift : ∀ i, i < k2 →
              step (rest.getD i ⟨0, 0, 0, []⟩) (ts2.getD i .RGB)
                (fs2.getD i .RGB) = .ok (out (i + 1)) := by
            intro i hi
            have h := hok (i + 1) (by omega)
            rwa [List.getD_cons_succ, List.getD_cons_succ,
              List.getD_cons_succ] at h
          have hfail2 : step (rest.getD k2 ⟨0, 0, 0, []⟩)
              (ts2.getD k2 .RGB) (fs2.getD k2 .RGB) = .error e := by
            rwa [List.getD_cons_succ, List.getD_cons_succ,
              List.getD_cons_succ] at hfail
          have hrec := ih ts2 fs2 (fun i => out (i + 1)) k2 e
            (by simpa using hts) (by simpa using hfs)
            (by simp at hk; omega) hshift hfail2
          simp only [convertLoop, h0, hrec]
          rw [List.range_succ_eq_map]
          simp [List.map_map, Function.comp_def]

/-! ### Claim theorems -/

/-- C2 (amended): `convert(image, A, A)` returns the input unchanged for
every colorspace tag `A` except `GRAY`: the source asserts
`from_colorspace != GRAY` before it reaches the identity fast path, so
the identity holds exactly for all non-GRAY tags. -/
theorem C2_identity_non_gray
    (cvtColor : Colorspace → Colorspace → Image → Image) (img : Image)
    (A : Colorspace) (hA : A ≠ Colorspace.GRAY) (hc : img.c = 3) :
    change_colorspace_ cvtColor img A A = .ok img := by
  unfold change_colorspace_
  rw [if_neg hA, if_neg (by omega : ¬img.c ≠ 3), if_pos rfl]

/-- Witness for C2: the identity conversion on a concrete `1x1x3` uint8
image in `HSV`. -/
theorem C2_identity_non_gray_witness :
    change_colorspace_ (fun _ _ im => im) ⟨1, 1, 3, [10, 20, 30]⟩
      Colorspace.HSV Colorspace.HSV = .ok ⟨1, 1, 3, [10, 20, 30]⟩ :=
  C2_identity_non_gray (fun _ _ im => im) ⟨1, 1, 3, [10, 20, 30]⟩
    Colorspace.HSV (by decide) rfl

/-- Counterexample to C2 as stated: for `A = GRAY` the conversion does
not return the input; it fails with the from-GRAY assertion
(`UnsupportedConversion`), because that assert runs before the
`from == to` fast path. -/
theorem C2_counterexample :
    change_colorspace_ (fun _ _ im => im) ⟨1, 1, 3, [10, 20, 30]⟩
      Colorspace.GRAY Colorspace.GRAY = .error .unsupportedConversion :=
  rfl

/-- C6: adding `255` to the hue equals adding `0`.  The projected shift
of `255` is `180`; LUT row `255+180` (`(v+180) mod 180`) coincides with
row `255+0` (`v mod 180`), so the whole `AddToHue` pipeline — HSV
conversion, LUT transform, back conversion — produces the identical
image, whatever the conversion functions do. -/
theorem C6_hue_wraparound (cvtToHSV cvtFromHSV : Image → Image)
    (img : Image) :
    AddToHue.augment_image cvtToHSV cvtFromHSV img 255
      = AddToHue.augment_image cvtToHSV cvtFromHSV img 0 := by
  unfold AddToHue.augment_image AddToHueAndSaturation.augment_image
  apply congrArg
  unfold AddToHueAndSaturation.transform_image_cv2
  rw [show projHueSample 255 = 180 by decide,
    show projHueSample 0 = 0 by decide]
  apply Image.ofFn_congr
  intro i j k _ _ _
  by_cases hk0 : k = 0
  · subst hk0
    rw [if_pos rfl, if_pos rfl]
    rw [show ((255 : ℤ) + 180).toNat = 435 by decide,
      show ((255 : ℤ) + 0).toNat = 255 by decide, lut_hue_row_wrap]
  · rw [if_neg hk0, if_neg hk0]

/-- Witness for C6 at a concrete image and identity conversions. -/
theorem C6_hue_wraparound_witness :
    AddToHue.augment_image id id ⟨1, 1, 3, [5, 6, 7]⟩ 255
      = AddToHue.augment_image id id ⟨1, 1, 3, [5, 6, 7]⟩ 0 :=
  C6_hue_wraparound id id ⟨1, 1, 3, [5, 6, 7]⟩

/-- C7: for `from_cs ≠ GRAY` and `from_cs ≠ to_cs`, the conversion plan
is the single native conversion when the pair is in the curated table,
and otherwise exactly the two conversions `from_cs -> RGB` and
`RGB -> to_cs`, both of which are always in the table — so the routing
reaches every supported target. -/
theorem C7_routing (f t : Colorspace) (hf : f ≠ Colorspace.GRAY)
    (hft : f ≠ t) :
    (directConv f t = true → convPlan f t = [(f, t)]) ∧
    (directConv f t = false →
      convPlan f t = [(f, Colorspace.RGB), (Colorspace.RGB, t)] ∧
      directConv f Colorspace.RGB = true ∧
      directConv Colorspace.RGB t = true) := by
  revert hf hft
  revert f t
  decide

/-- Witness for C7: the `HSV -> Lab` pair is not in the table and routes
through the RGB hub with both legs present. -/
theorem C7_routing_witness :
    convPlan Colorspace.HSV Colorspace.Lab
      = [(Colorspace.HSV, Colorspace.RGB), (Colorspace.RGB, Colorspace.Lab)]
    ∧ directConv Colorspace.HSV Colorspace.RGB = true
    ∧ directConv Colorspace.RGB Colorspace.Lab = true :=
  (C7_routing Colorspace.HSV Colorspace.Lab (by decide) (by decide)).2
    (by decide)

/-- C3 (amended): per pixel, `AddToHueAndSaturation` adds the projected
shift `trunc(shift*180/255)` to the native hue and reduces modulo 180 —
not the spec's `((hue_in + shift) mod 255)` rescaled; the cv2 LUT
backend and the numpy backend agree on this; and the spec's
normalized-domain equation is exactly what the `WithHueAndSaturation`
pipeline computes instead. -/
theorem C3_hue_add_per_pixel (img : Image) (s t : ℤ)
    (hs1 : -255 ≤ s) (hs2 : s ≤ 255) (ht1 : -255 ≤ t) (ht2 : t ≤ 255)
    (h8 : img.isUint8) :
    (∀ i j, i < img.h → j < img.w → 0 < img.c →
      (AddToHueAndSaturation.transform_image_cv2 img (projHueSample s) t).px
          i j 0
        = (((img.px i j 0 : ℤ) + projHueSample s) % 180).toNat) ∧
    AddToHueAndSaturation.transform_image_cv2 img (projHueSample s) t
      = AddToHueAndSaturation.transform_image_numpy img (projHueSample s) t ∧
    (∀ hNative : ℕ,
      WithHueAndSaturation.hue_pipeline hNative s = specHueAdd hNative s) := by
  have hproj := projHueSample_bounds s hs1 hs2
  refine ⟨?_, ?_, ?_⟩
  · intro i j hi hj hc
    unfold AddToHueAndSaturation.transform_image_cv2
    rw [Image.px_ofFn _ _ _ _ hi hj hc]
    rw [if_pos rfl]
    exact lut_hue_lookup _ (by omega) (by omega) _
      (by have := img.px_le h8 i j 0; omega)
  · unfold AddToHueAndSaturation.transform_image_cv2
      AddToHueAndSaturation.transform_image_numpy
    apply Image.ofFn_congr
    intro i j k _ _ _
    by_cases hk0 : k = 0
    · subst hk0
      simp only [if_pos rfl]
      exact lut_hue_lookup _ (by omega) (by omega) _
        (by have := img.px_le h8 i j 0; omega)
    · by_cases hk1 : k = 1
      · subst hk1
        simp only [if_neg (by omega : ¬(1 : ℕ) = 0), if_pos rfl]
        exact lut_sat_lookup t ht1 ht2 _
          (by have := img.px_le h8 i j 1; omega)
      · simp only [if_neg hk0, if_neg hk1]
  · intro hNative
    rfl

/-- Witness for C3 at a concrete image, shift `100`, saturation `5`. -/
theorem C3_hue_add_per_pixel_witness :
    (AddToHueAndSaturation.transform_image_cv2 ⟨1, 1, 3, [10, 20, 30]⟩
        (projHueSample 100) 5).px 0 0 0
      = ((((Image.px ⟨1, 1, 3, [10, 20, 30]⟩ 0 0 0 : ℕ) : ℤ)
          + projHueSample 100) % 180).toNat :=
  (C3_hue_add_per_pixel ⟨1, 1, 3, [10, 20, 30]⟩ 100 5 (by decide) (by decide)
    (by decide) (by decide)
    (by unfold Image.isUint8; decide)).1 0 0 (by decide) (by decide)
    (by decide)

set_option maxRecDepth 4000 in
/-- Counterexample to C3 as stated: at native hue `0` and shift `-1`,
the augmenter's transform leaves the hue at `0` (the projected shift
truncates to `0`), while the spec's equation
`((hue_in + shift) mod 255) scaled to [0,180]` gives `179`. -/
theorem C3_counterexample :
    (AddToHueAndSaturation.transform_image_cv2 ⟨1, 1, 3, [0, 100, 50]⟩
        (projHueSample (-1)) 0).px 0 0 0 = 0
    ∧ specHueAdd 0 (-1) = 179
    ∧ (0 : ℕ) ≠ 179 := by
  refine ⟨rfl, rfl, by omega⟩

/-- C4 (amended): the sampled `n_colors` values are clamped from below
to `2` only (`np.clip(n_colors, 2, None)`): every drawn value stays at
least `2`, a value above `256` survives the clamp unchanged, and both
quantization functions then reject it with their
`2 <= n_colors <= 256` assertion instead of bringing it into range. -/
theorem C4_n_colors_clamp (l : List ℤ) (img : Image)
    (kmeansFn : Image → ℕ → Image) (n : ℤ) (m : ℕ) :
    (∀ x ∈ AbstractColorQuantization.draw_samples l, 2 ≤ x) ∧
    (n ∈ l → 2 ≤ n → n ∈ AbstractColorQuantization.draw_samples l) ∧
    (256 < m → quantize_colors_uniform img m = .error .parameterRange) ∧
    (256 < m → quantize_colors_kmeans kmeansFn img m
        = .error .parameterRange) := by
  refine ⟨?_, ?_, ?_, ?_⟩
  · intro x hx
    unfold AbstractColorQuantization.draw_samples at hx
    rw [List.mem_map] at hx
    obtain ⟨y, _, hy⟩ := hx
    omega
  · intro hn h2
    unfold AbstractColorQuantization.draw_samples
    rw [List.mem_map]
    exact ⟨n, hn, by omega⟩
  · intro hm
    unfold quantize_colors_uniform
    rw [if_neg (by omega)]
  · intro hm
    unfold quantize_colors_kmeans
    rw [if_neg (by omega)]

/-- Witness for C4: a sampled `300` fails `quantize_colors_uniform`. -/
theorem C4_n_colors_clamp_witness :
    quantize_colors_uniform ⟨1, 1, 3, [5, 5, 5]⟩ 300
      = .error .parameterRange :=
  (C4_n_colors_clamp [] ⟨1, 1, 3, [5, 5, 5]⟩ (fun im _ => im) 0
    300).2.2.1 (by omega)

/-- Counterexample to C4 as stated: the sampled value `300` is not
brought into `[2, 256]` by `_draw_samples`, and quantization of a
concrete image with it raises instead of succeeding. -/
theorem C4_counterexample :
    AbstractColorQuantization.draw_samples [300] = [300]
    ∧ ¬((300 : ℤ) ≤ 256)
    ∧ quantize_colors_uniform ⟨1, 1, 3, [5, 5, 5]⟩ 300
        = .error .parameterRange := by
  refine ⟨rfl, by omega, rfl⟩

/-- C5 (amended): `AddToHueAndSaturation._draw_samples` validates only
`samples[0, 0]`: sampling fails with the range assertion exactly when
the first drawn value of the first image is outside `[-255, 255]`;
out-of-range values at any other position are not checked. -/
theorem C5_draw_samples_first_only (s0 s1 : ℤ) (rest : List (ℤ × ℤ))
    (pc : List Bool) :
    (AddToHueAndSaturation.draw_samples ((s0, s1) :: rest) pc
        = .error .parameterRange)
      ↔ ¬(-255 ≤ s0 ∧ s0 ≤ 255) := by
  show (if -255 ≤ s0 ∧ s0 ≤ 255 then
      Except.ok (((s0, s1) :: rest).map (fun p => projHueSample p.1),
        (((s0, s1) :: rest).zip pc).map (fun q =>
          if q.2 then q.1.2 else q.1.1))
    else (Except.error .parameterRange : Except Err (List ℤ × List ℤ)))
      = .error .parameterRange ↔ ¬(-255 ≤ s0 ∧ s0 ≤ 255)
  split_ifs with h
  · simp [h]
  · simp [h]

/-- Witness for C5: an in-range first sample yields no range error. -/
theorem C5_draw_samples_first_only_witness :
    (AddToHueAndSaturation.draw_samples [((10 : ℤ), (0 : ℤ))] []
        = .error .parameterRange)
      ↔ ¬(-255 ≤ (10 : ℤ) ∧ (10 : ℤ) ≤ 255) :=
  C5_draw_samples_first_only 10 0 [] []

/-- Counterexample to C5 as stated: a batch whose second image draws
`300` (outside `[-255, 255]`) samples successfully, because only the
first draw is asserted. -/
theorem C5_counterexample :
    AddToHueAndSaturation.draw_samples [(0, 0), (300, 7)] [false, false]
      = .ok ([0, 211], [0, 300])
    ∧ ¬(-255 ≤ (300 : ℤ) ∧ (300 : ℤ) ≤ 255) := by
  refine ⟨rfl, by omega⟩

/-- C8 (amended): for `n_colors` inside the asserted interval
`[2, 256]`, k-means quantization with `n_colors >= H*W` returns the
input unchanged (`np.copy(image)`), whatever the clustering primitive
would do; the interval bound is needed because the
`2 <= n_colors <= 256` assertion runs before the degenerate-case
check. -/
theorem C8_kmeans_degenerate (kmeansFn : Image → ℕ → Image) (img : Image)
    (n : ℕ) (h2 : 2 ≤ n) (h256 : n ≤ 256) (hpx : img.h * img.w ≤ n) :
    quantize_colors_kmeans kmeansFn img n = .ok img := by
  unfold quantize_colors_kmeans
  rw [if_pos ⟨h2, h256⟩, if_pos hpx]

/-- Witness for C8: a `1x2` image with `n_colors = 5 >= 2 = H*W`. -/
theorem C8_kmeans_degenerate_witness :
    quantize_colors_kmeans (fun im _ => im) ⟨1, 2, 3, [1, 2, 3, 4, 5, 6]⟩ 5
      = .ok ⟨1, 2, 3, [1, 2, 3, 4, 5, 6]⟩ :=
  C8_kmeans_degenerate (fun im _ => im) ⟨1, 2, 3, [1, 2, 3, 4, 5, 6]⟩ 5
    (by omega) (by omega) (by decide)

/-- Counterexample to C8 as stated: a `1x1` image with
`n_colors = 257 >= 1 = H*W` does not come back unchanged — the range
assertion raises first. -/
theorem C8_counterexample :
    quantize_colors_kmeans (fun im _ => im) ⟨1, 1, 3, [1, 2, 3]⟩ 257
      = .error .parameterRange
    ∧ Image.h ⟨1, 1, 3, [1, 2, 3]⟩ * Image.w ⟨1, 1, 3, [1, 2, 3]⟩ ≤ 257 := by
  refine ⟨rfl, by decide⟩

/-- C10: uniform color quantization is idempotent on uint8 images for
every `n_colors` in `[2, 256]`: requantizing the quantized image with
the same `n_colors` reproduces it exactly (each output value is the
centre of its own bin, and rounding moves it by less than half a bin
width since the bin width `256/n_colors` exceeds `1`). -/
theorem C10_uniform_idempotent (img : Image) (n : ℕ) (h2 : 2 ≤ n)
    (h256 : n ≤ 256) (h8 : img.isUint8) :
    (quantize_colors_uniform img n).bind
        (fun r => quantize_colors_uniform r n)
      = quantize_colors_uniform img n := by
  by_cases h : n = 256
  · subst h
    have hval : quantize_colors_uniform img 256 = .ok img := by
      unfold quantize_colors_uniform
      rw [if_pos ⟨h2, by omega⟩, if_pos rfl]
    rw [hval]
    show quantize_colors_uniform img 256 = Except.ok img
    exact hval
  · have hn255 : n ≤ 255 := by omega
    have hq : quantize_colors_uniform img n
        = .ok ⟨img.h, img.w, img.c, img.data.map (uniformQuantPixel n)⟩ := by
      unfold quantize_colors_uniform
      rw [if_pos ⟨h2, h256⟩, if_neg h]
    rw [hq]
    show quantize_colors_uniform
      ⟨img.h, img.w, img.c, img.data.map (uniformQuantPixel n)⟩ n
      = .ok ⟨img.h, img.w, img.c, img.data.map (uniformQuantPixel n)⟩
    unfold quantize_colors_uniform
    rw [if_pos ⟨h2, h256⟩, if_neg h]
    simp only [Except.ok.injEq, Image.mk.injEq, true_and]
    show (img.data.map (uniformQuantPixel n)).map (uniformQuantPixel n)
      = img.data.map (uniformQuantPixel n)
    rw [List.map_map]
    apply List.map_congr_left
    intro v hv
    exact uniformQuantPixel_idem n v h2 hn255 (h8 v hv)

/-- Witness for C10 on a concrete image with `n_colors = 7`. -/
theorem C10_uniform_idempotent_witness :
    (quantize_colors_uniform ⟨1, 1, 3, [10, 200, 255]⟩ 7).bind
        (fun r => quantize_colors_uniform r 7)
      = quantize_colors_uniform ⟨1, 1, 3, [10, 200, 255]⟩ 7 :=
  C10_uniform_idempotent ⟨1, 1, 3, [10, 200, 255]⟩ 7 (by omega) (by omega)
    (by unfold Image.isUint8; decide)

/-- C1 (amended): for a 4-channel image, the quantization scaffold
preserves the alpha channel bit-exactly whenever no downscaling occurs
(`max_size` is `None` or the longer side does not exceed it) and the
colorspace round-trip and quantization steps keep the image shape.  When
the image is downscaled, the whole image — alpha included — is resized
down and back up, so bit-identity is not guaranteed for every
`max_size` setting. -/
theorem C1_alpha_passthrough_no_downscale
    (quantizeFn : Image → Except Err Image) (cs csInv : Image → Image)
    (maxSize : Option ℕ) (img : Image)
    (hcs : preservesShape cs) (hcsInv : preservesShape csInv)
    (hq : ∀ x, ∃ y, quantizeFn x = .ok y
      ∧ y.h = x.h ∧ y.w = x.w ∧ y.c = x.c)
    (hc4 : img.c = 4)
    (hnd : maxSize = none ∨ ∃ m, maxSize = some m ∧ max img.h img.w ≤ m) :
    ∃ out, AbstractColorQuantization.augment_single_image quantizeFn cs csInv
        maxSize img = .ok out
      ∧ out.h = img.h ∧ out.w = img.w ∧ out.c = 4
      ∧ ∀ i j, i < img.h → j < img.w → out.px i j 3 = img.px i j 3 := by
  have hens : AbstractColorQuantization.ensure_max_size img maxSize = img := by
    unfold AbstractColorQuantization.ensure_max_size
    rcases hnd with hcase | ⟨m, hm, hle⟩
    · rw [hcase]
    · rw [hm]
      simp only
      rw [if_neg (by omega)]
  obtain ⟨y, hy, hyh, hyw, hyc⟩ := hq (cs (img.channels 0 3))
  obtain ⟨hch, hcw, hcc⟩ := hcs (img.channels 0 3)
  obtain ⟨hih, hiw, hic⟩ := hcsInv y
  have hbh : (img.channels 0 3).h = img.h := rfl
  have hbw : (img.channels 0 3).w = img.w := rfl
  have hbc : (img.channels 0 3).c = 3 := rfl
  have hyh2 : (csInv y).h = img.h := by rw [hih, hyh, hch, hbh]
  have hyw2 : (csInv y).w = img.w := by rw [hiw, hyw, hcw, hbw]
  have hyc2 : (csInv y).c = 3 := by rw [hic, hyc, hcc, hbc]
  set A := (csInv y).concatChannels (img.channels 3 1) with hA
  have hAh : A.h = img.h := by
    rw [hA]
    unfold Image.concatChannels
    rw [Image.ofFn_h, hyh2]
  have hAw : A.w = img.w := by
    rw [hA]
    unfold Image.concatChannels
    rw [Image.ofFn_w, hyw2]
  have hAc : A.c = 4 := by
    rw [hA]
    unfold Image.concatChannels
    rw [Image.ofFn_c, hyc2]
    rfl
  refine ⟨A, ?_, hAh, hAw, hAc, ?_⟩
  · unfold AbstractColorQuantization.augment_single_image
    rw [if_pos (by omega : img.c = 1 ∨ img.c = 3 ∨ img.c = 4)]
    rw [hens]
    dsimp only
    rw [if_neg (by omega : ¬img.c = 1), if_pos hc4]
    rw [hy]
    show Except.map _ (.ok A) = .ok A
    show Except.ok (if (img.h, img.w, img.c) ≠ (A.h, A.w, A.c) then
      imresize_single_image A img.h img.w else A) = .ok A
    rw [if_neg (by rw [hAh, hAw, hAc, hc4]; simp)]
  · intro i j hi hj
    rw [hA]
    unfold Image.concatChannels
    have hac : (img.channels 3 1).c = 1 := rfl
    have hiA : i < (csInv y).h := by rw [hyh2]; exact hi
    have hjA : j < (csInv y).w := by rw [hyw2]; exact hj
    have hkA : 3 < (csInv y).c + (img.channels 3 1).c := by
      rw [hyc2, hac]
      omega
    have hnc : ¬3 < (csInv y).c := by rw [hyc2]; omega
    rw [Image.px_ofFn _ _ _ _ hiA hjA hkA]
    rw [if_neg hnc, hyc2]
    show (img.channels 3 1).px i j 0 = img.px i j 3
    unfold Image.channels
    rw [Image.px_ofFn _ _ _ _ hi hj (by omega)]

/-- Witness for C1 on a concrete `1x1x4` image with identity
colorspace round-trip and identity quantization and no `max_size`. -/
theorem C1_alpha_passthrough_witness :
    ∃ out, AbstractColorQuantization.augment_single_image
        (fun x => .ok x) id id none ⟨1, 1, 4, [1, 2, 3, 9]⟩ = .ok out
      ∧ out.h = 1 ∧ out.w = 1 ∧ out.c = 4
      ∧ ∀ i j, i < Image.h ⟨1, 1, 4, [1, 2, 3, 9]⟩ →
          j < Image.w ⟨1, 1, 4, [1, 2, 3, 9]⟩ →
          out.px i j 3 = Image.px ⟨1, 1, 4, [1, 2, 3, 9]⟩ i j 3 :=
  C1_alpha_passthrough_no_downscale (fun x => .ok x) id id none
    ⟨1, 1, 4, [1, 2, 3, 9]⟩ (fun _ => ⟨rfl, rfl, rfl⟩)
    (fun _ => ⟨rfl, rfl, rfl⟩) (fun x => ⟨x, rfl, rfl, rfl, rfl⟩) rfl
    (Or.inl rfl)

set_option maxRecDepth 8000 in
/-- Counterexample to C1 as stated: with `max_size = 2` a `4x4`
4-channel image is downscaled to `2x2` and upscaled back, and the alpha
value at pixel `(0, 1)` changes from `10` to `0` (uniform quantizer
with `n_colors = 2`, no colorspace round-trip — the default for
`UniformColorQuantization`). -/
theorem C1_counterexample :
    (AbstractColorQuantization.augment_single_image
        (fun x => quantize_colors_uniform x 2) id id (some 2) C1img).map
      (fun r => r.px 0 1 3) = .ok 0
    ∧ C1img.px 0 1 3 = 10 := by
  constructor
  · with_unfolding_all rfl
  · rfl

/-- C9: `change_colorspaces_` broadcasts a scalar colorspace argument to
a per-image list, errors on a length mismatch before touching any image,
converts the images independently in index order on success, and on the
first failing image stops with all earlier images already transformed
and the rest untouched. -/
theorem C9_convert_batch
    (cvtColor : Colorspace → Colorspace → Image → Image)
    (images : List Image) :
    (∀ c f, change_colorspaces_ cvtColor images (.single c) (.single f)
        = change_colorspaces_ cvtColor images
            (.many (List.replicate images.length c))
            (.many (List.replicate images.length f))) ∧
    (∀ cs fsArg, cs.length ≠ images.length →
        change_colorspaces_ cvtColor images (.many cs) fsArg
          = (images, some .shapeMismatch)) ∧
    (∀ ts fs, ts.length = images.length → fs.length ≠ images.length →
        change_colorspaces_ cvtColor images (.many ts) (.many fs)
          = (images, some .shapeMismatch)) ∧
    (∀ (ts fs : List Colorspace) (out : ℕ → Image),
        ts.length = images.length → fs.length = images.length →
        (∀ i, i < images.length →
          change_colorspace_ cvtColor (images.getD i ⟨0, 0, 0, []⟩)
            (ts.getD i .RGB) (fs.getD i .RGB) = .ok (out i)) →
        change_colorspaces_ cvtColor images (.many ts) (.many fs)
          = ((List.range images.length).map out, none)) ∧
    (∀ (ts fs : List Colorspace) (out : ℕ → Image) (k : ℕ) (e : Err),
        ts.length = images.length → fs.length = images.length →
        k < images.length →
        (∀ i, i < k →
          change_colorspace_ cvtColor (images.getD i ⟨0, 0, 0, []⟩)
            (ts.getD i .RGB) (fs.getD i .RGB) = .ok (out i)) →
        change_colorspace_ cvtColor (images.getD k ⟨0, 0, 0, []⟩)
          (ts.getD k .RGB) (fs.getD k .RGB) = .error e →
        change_colorspaces_ cvtColor images (.many ts) (.many fs)
          = ((List.range k).map out ++ images.drop k, some e)) := by
  refine ⟨?_, ?_, ?_, ?_, ?_⟩
  · intro c f
    unfold change_colorspaces_ validateCsArg
    dsimp only
    rw [if_pos (List.length_replicate _ _),
      if_pos (List.length_replicate _ _)]
  · intro cs fsArg hne
    unfold change_colorspaces_ validateCsArg
    dsimp only
    rw [if_neg hne]
  · intro ts fs hts hne
    unfold change_colorspaces_ validateCsArg
    dsimp only
    rw [if_pos hts, if_neg hne]
  · intro ts fs out hts hfs hsteps
    unfold change_colorspaces_ validateCsArg
    dsimp only
    rw [if_pos hts, if_pos hfs]
    exact convertLoop_all_ok _ images ts fs out hts hfs hsteps
  · intro ts fs out k e hts hfs hk hok hfail
    unfold change_colorspaces_ validateCsArg
    dsimp only
    rw [if_pos hts, if_pos hfs]
    exact convertLoop_first_fail _ images ts fs out k e hts hfs hk hok hfail

/-- Witness for C9: a two-image batch whose second conversion starts
from `GRAY` fails there, leaving the first image already converted (the
identity `RGB -> RGB` conversion) and the second untouched. -/
theorem C9_convert_batch_witness :
    change_colorspaces_ (fun _ _ im => im)
      [⟨1, 1, 3, [1, 2, 3]⟩, ⟨1, 1, 3, [4, 5, 6]⟩]
      (.many [Colorspace.RGB, Colorspace.RGB])
      (.many [Colorspace.RGB, Colorspace.GRAY])
      = ([⟨1, 1, 3, [1, 2, 3]⟩, ⟨1, 1, 3, [4, 5, 6]⟩],
          some .unsupportedConversion) := by
  have h := (C9_convert_batch (fun _ _ im => im)
      [⟨1, 1, 3, [1, 2, 3]⟩, ⟨1, 1, 3, [4, 5, 6]⟩]).2.2.2.2
    [Colorspace.RGB, Colorspace.RGB] [Colorspace.RGB, Colorspace.GRAY]
    (fun _ => ⟨1, 1, 3, [1, 2, 3]⟩) 1 .unsupportedConversion rfl rfl
    (by decide)
    (by
      intro i hi
      have hi0 : i = 0 := by omega
      subst hi0
      rfl)
    rfl
  simpa using h
